import Mathlib

/-!
Verification of the fast large-document ingestion pipeline of
`fast_large_document_processor.py` (streaming parse, intelligent chunking,
relevance selection, batch embedding with cache, batched upsert, orchestration).

Strings are modelled as `List Char` (`Str`).  Python's `str.strip`,
`str.lower`, `str.split`, the `in` substring test and `range` are modelled
by executable Lean functions below.  External collaborators (the PDF page
extractor, the sentence-transformer encoder, the MD5 hash and the Pinecone
index) are abstract parameters: the encoder is a function `Str → V`
(deterministic per text, per the documented external contract), MD5 is an
abstract function parameter, and the index's `upsert` is modelled by a
`fails : Nat → Option Str` oracle giving, for each attempted call in order,
whether it raises (with which message).  Effectful code is modelled by
explicit state passing / `Except`; the trace of attempted upsert calls is
returned so that batching behaviour is observable.  Wall-clock times are not
modelled; the only arithmetic the orchestrator performs whose failure is
observable (integer/float division by a *count*) is modelled by explicit
zero tests that raise `"division by zero"` exactly where Python would.
-/

namespace FastDoc

/-! # Definitions -/

/-! ## Python string primitives -/

abbrev Str := List Char

/-- Python's default whitespace class (ASCII part), as used by `str.strip`
and `str.split()`. -/
def isWS (c : Char) : Bool :=
  c = ' ' || c = '\t' || c = '\n' || c = '\r' || c = Char.ofNat 11 || c = Char.ofNat 12

/-- Python `s.strip()`: drop whitespace from both ends. -/
def pyStrip (s : Str) : Str :=
  ((s.dropWhile isWS).reverse.dropWhile isWS).reverse

/-- The non-whitespace characters of a string, in order (the "content"). -/
def nonWS (s : Str) : Str := s.filter (fun c => !(isWS c))

/-- Python `c.lower()` for a single character (ASCII). -/
def lowerChar (c : Char) : Char :=
  if 'A' ≤ c ∧ c ≤ 'Z' then Char.ofNat (c.toNat + 32) else c

/-- Python `s.lower()` (ASCII model). -/
def pyLower (s : Str) : Str := s.map lowerChar

/-- Python's substring test `pat in s` (contiguous substring). -/
def strContains (pat : Str) : Str → Bool
  | [] => pat.isEmpty
  | c :: t => pat.isPrefixOf (c :: t) || strContains pat t

/-- The separator `"\n\n"` used by `intelligent_chunk_split`. -/
def nn : Str := ['\n', '\n']

/-- Python `page_text.split('\n\n')`: split on each non-overlapping
occurrence of the two-character separator, left to right. -/
def splitNN : Str → List Str
  | [] => [[]]
  | [c] => [[c]]
  | a :: b :: rest =>
    if a = '\n' ∧ b = '\n' then [] :: splitNN rest
    else
      match splitNN (b :: rest) with
      | [] => [[a]]
      | p :: ps => (a :: p) :: ps

/-- Joining with the `"\n\n"` separator (inverse of `splitNN`). -/
def joinNN : List Str → Str
  | [] => []
  | [s] => s
  | s :: rest => s ++ nn ++ joinNN rest

/-- Auxiliary for Python `s.split()` (split on whitespace runs, no empties). -/
def splitWSAux : Str → Str → List Str
  | [], acc => if acc.isEmpty then [] else [acc.reverse]
  | c :: rest, acc =>
    if isWS c then
      if acc.isEmpty then splitWSAux rest [] else acc.reverse :: splitWSAux rest []
    else splitWSAux rest (c :: acc)

/-- Python `s.split()` with no separator argument. -/
def pySplitWS (s : Str) : List Str := splitWSAux s []

/-- Python `range(start, stop, step)` for a non-negative `step`
(`step = 0` raises in Python and never occurs in this code; we return `[]`). -/
def pyRange (start stop step : Nat) : List Nat :=
  if step = 0 then []
  else (List.range ((stop - start + step - 1) / step)).map (fun k => start + k * step)

/-! ## Chunks and `intelligent_chunk_split` -/

/-- A chunk dict as built by `intelligent_chunk_split`; `relevance_score` and
`embedding` model the keys later added in place by
`select_most_relevant_chunks` and `embed_chunks_parallel` (absent = `none`).
The embedding vector type models the float vectors as an opaque payload
(`List Int`); no claim inspects vector arithmetic. -/
structure Chunk where
  chunk_id : Nat
  chunk_text : Str
  char_count : Nat
  relevance_score : Option Nat := none
  embedding : Option (List Int) := none
deriving DecidableEq

/-- State of the chunking loop: finished chunks, the running buffer
(`current_chunk`) and the next `chunk_id`. -/
structure SplitState where
  chunks : List Chunk
  current : Str
  next_id : Nat
deriving DecidableEq

/-- The body of the inner `for section in sections` loop. -/
def chunkStep (maxC : Nat) (st : SplitState) (sec : Str) : SplitState :=
  if pyStrip sec = [] then st
  else if maxC < st.current.length + sec.length ∧ st.current ≠ [] then
    { chunks := st.chunks ++ [⟨st.next_id, pyStrip st.current, st.current.length, none, none⟩],
      current := sec,
      next_id := st.next_id + 1 }
  else
    { st with current := if st.current ≠ [] then st.current ++ nn ++ sec else sec }

/-- The trailing `if current_chunk.strip(): chunks.append(...)`. -/
def chunkFinish (st : SplitState) : List Chunk :=
  if pyStrip st.current = [] then st.chunks
  else st.chunks ++ [⟨st.next_id, pyStrip st.current, st.current.length, none, none⟩]

/-- `intelligent_chunk_split(texts, max_chunk_chars)`: sections are the
`'\n\n'`-separated pieces of each page; sections are merged into chunks up to
the character budget, with oversized single sections kept whole. -/
def intelligent_chunk_split (texts : List Str) (maxC : Nat) : List Chunk :=
  chunkFinish
    (texts.foldl (fun st page => (splitNN page).foldl (chunkStep maxC) st)
      ⟨[], [], 0⟩)

/-- The flat list of sections of a document, in order. -/
def allSections (texts : List Str) : List Str :=
  (texts.map splitNN).flatten

/-- The document content accounted for by a chunking state: text already in
chunks plus the running buffer. -/
def stateText (st : SplitState) : Str :=
  (st.chunks.map Chunk.chunk_text).flatten ++ st.current

/-- A chunk satisfies the (amended) size bound: within budget plus one
two-character separator, or a single document section that alone exceeds the
budget, kept whole. -/
def ChunkSized (texts : List Str) (maxC : Nat) (c : Chunk) : Prop :=
  c.char_count ≤ maxC + 2 ∨
    ∃ sec ∈ allSections texts, c.chunk_text = pyStrip sec ∧
      c.char_count = sec.length ∧ maxC < sec.length

/-- Loop invariant for the size bound: all flushed chunks are sized, and the
running buffer is within budget + separator or is a single oversized section. -/
def SizeInv (texts : List Str) (maxC : Nat) (st : SplitState) : Prop :=
  (∀ c ∈ st.chunks, ChunkSized texts maxC c) ∧
    (st.current.length ≤ maxC + 2 ∨
      (st.current ∈ allSections texts ∧ maxC < st.current.length))

/-! ## `select_most_relevant_chunks` -/

/-- The fixed list of important contract terms. -/
def importantTerms : List Str :=
  ["term".data, "liability".data, "payment".data, "confidential".data,
   "termination".data, "indemnif".data, "compliance".data, "risk".data,
   "breach".data, "obligation".data]

/-- The relevance score of one chunk for the given (already listed) query
keywords, exactly the per-chunk accumulation in `select_most_relevant_chunks`:
+100 for `chunk_id == 0`, +50 per (lowercased) keyword occurring in the
lowercased text, +10 per important term occurring, +20 if `"term"` or
`"condition"` occurs. -/
def relevanceScore (query_keywords : List Str) (c : Chunk) : Nat :=
  let t := pyLower c.chunk_text
  (if c.chunk_id = 0 then 100 else 0)
    + 50 * (query_keywords.countP (fun kw => strContains (pyLower kw) t))
    + 10 * (importantTerms.countP (fun tm => strContains tm t))
    + (if strContains "term".data t || strContains "condition".data t then 20 else 0)

/-- The `for chunk in chunks` loop of `select_most_relevant_chunks`.  Python
mutates the chunk dicts in place (`chunk["relevance_score"] = score`) and
appends the same objects to `selected`; we return both the post-loop input
list and the `selected` list. -/
def selectPass (query_keywords : List Str) (chunks : List Chunk) :
    List Chunk × List Chunk :=
  chunks.foldl
    (fun acc c =>
      let s := relevanceScore query_keywords c
      if 0 < s then
        let c' := { c with relevance_score := some s }
        (acc.1 ++ [c'], acc.2 ++ [c'])
      else (acc.1 ++ [c], acc.2))
    ([], [])

/-- The sort key `x["relevance_score"]` (always present on selected chunks). -/
def scoreOf (c : Chunk) : Nat := c.relevance_score.getD 0

/-- Stable insertion for descending sort: `c` goes after the elements with a
strictly greater key and before the first element with a key `≤` its own, so
that (inserting earlier input elements last) equal keys keep input order. -/
def insertDesc (c : Chunk) : List Chunk → List Chunk
  | [] => [c]
  | d :: ds => if scoreOf c < scoreOf d then d :: insertDesc c ds else c :: d :: ds

/-- Stable descending sort by `relevance_score`, modelling Python's stable
`selected.sort(key=lambda x: x["relevance_score"], reverse=True)`. -/
def sortDesc : List Chunk → List Chunk
  | [] => []
  | c :: cs => insertDesc c (sortDesc cs)

/-- `select_most_relevant_chunks(chunks, query_keywords, top_k)`. -/
def select_most_relevant_chunks (chunks : List Chunk) (query_keywords : List Str)
    (top_k : Nat) : List Chunk :=
  (sortDesc (selectPass query_keywords chunks).2).take top_k

/-- The state of the input chunk list after `select_most_relevant_chunks`
returns (Python mutates the chunk dicts in place). -/
def selectMutatedInput (chunks : List Chunk) (query_keywords : List Str) :
    List Chunk :=
  (selectPass query_keywords chunks).1

/-- Erasing the `relevance_score` key (to state what the mutation leaves
untouched). -/
def eraseScore (c : Chunk) : Chunk := { c with relevance_score := none }

/-- The in-place update `chunk["relevance_score"] = score` applied when the
score is positive; the identity otherwise. -/
def scoredUpd (query_keywords : List Str) (c : Chunk) : Chunk :=
  let s := relevanceScore query_keywords c
  if 0 < s then { c with relevance_score := some s } else c

/-- The selection filter as a `filterMap`. -/
def scoredSel (query_keywords : List Str) (c : Chunk) : Option Chunk :=
  let s := relevanceScore query_keywords c
  if 0 < s then some { c with relevance_score := some s } else none

/-- The strict "descending score, ties by `R`" relation produced by a stable
descending sort of an `R`-ordered input. -/
def StableDesc (R : Chunk → Chunk → Prop) (a b : Chunk) : Prop :=
  scoreOf b < scoreOf a ∨ (scoreOf a = scoreOf b ∧ R a b)

/-- The no-query fallback selection in `fast_process_large_document`:
`[chunks[0]]` plus `chunks[i]` for `i in range(1, len(chunks), max(1, len(chunks) // 10))`. -/
def noQuerySelect (chunks : List Chunk) : List Chunk :=
  (match chunks with
   | [] => []
   | c :: _ => [c])
    ++ (pyRange 1 chunks.length (max 1 (chunks.length / 10))).map
        (fun i => chunks.getD i ⟨0, [], 0, none, none⟩)

/-! ## `FastEmbedder.embed_batch` -/

/-- `FastEmbedder.embed_batch`, shallowly embedded.  `h` is the content hash
(MD5 in the source, abstract here), `f` the underlying model's per-text
encoding (`model.encode` maps it over the uncached texts; deterministic per
text by the documented model contract), `cache` the `embedding_cache` dict
(as a lookup function).  Returns the result vectors in input order, the
updated cache, and the list `texts_to_embed` that was passed to the model
(empty ⇔ the model was not invoked).  Mirrors the source: the cache is
consulted once per input before any encoding, so duplicate uncached texts
all go to the model; cache writes happen in encode order (last write wins);
cached positions are read back from the updated dict. -/
def embed_batch {K V : Type} [DecidableEq K] (h : Str → K) (f : Str → V)
    (cache : K → Option V) (texts : List Str) :
    List V × (K → Option V) × List Str :=
  let uncached := texts.enum.filter (fun p => (cache (h p.2)).isNone)
  let toEmbed := uncached.map (fun p => p.2)
  let newCache :=
    uncached.foldl (fun c p => fun k => if k = h p.2 then some (f p.2) else c k) cache
  let result := texts.map (fun t =>
    match cache (h t) with
    | some _ => (newCache (h t)).getD (f t)
    | none => f t)
  (result, newCache, toEmbed)

/-- `FastEmbedder.embed_chunks_parallel`: embed all chunk texts through
`embed_batch` and set `chunk["embedding"]` on each chunk. -/
def embed_chunks_parallel (hh : Str → Str) (f : Str → List Int)
    (cache : Str → Option (List Int)) (chunks : List Chunk) : List Chunk :=
  let res := (embed_batch hh f cache (chunks.map Chunk.chunk_text)).1
  (chunks.zip res).map (fun p => { p.1 with embedding := some p.2 })

/-! ## `async_upsert_to_pinecone` -/

/-- One `(id, vector, metadata)` record handed to `index.upsert`. -/
structure UpsertRecord where
  vector_id : Str
  vector : List Int
  meta_text : Str
  meta_chunk_id : Nat
  meta_char_count : Nat
deriving DecidableEq

/-- The dict returned by `async_upsert_to_pinecone`, plus the trace of
attempted `index.upsert` calls (in order, failed calls included) so that
batching is observable. -/
structure UploadOut where
  total_chunks : Nat
  uploaded_chunks : Nat
  status : Str
  calls : List (List UpsertRecord)
deriving DecidableEq

/-- The record built for one chunk: id `"chunk_" + md5(text)` (`hh` models
the MD5 hex digest), the embedding vector, and the metadata fields. -/
def mkRecord (hh : Str → Str) (c : Chunk) (v : List Int) : UpsertRecord :=
  ⟨"chunk_".data ++ hh c.chunk_text, v, c.chunk_text, c.chunk_id, c.char_count⟩

/-- The `for chunk in chunks` loop of `async_upsert_to_pinecone`.  State:
pending `vectors_to_upsert`, `uploaded_count`, and the attempted-call trace
(whose length indexes the `fails` oracle).  A chunk without an embedding is
skipped.  When pending reaches `batch_size` an upsert is attempted inside
`try`: on failure the exception is caught (logged) and — exactly as in the
source — `vectors_to_upsert` is *not* cleared, so the records are retried
together with the next batch; on success the count is bumped and pending is
cleared. -/
def upsertLoop (hh : Str → Str) (fails : Nat → Option Str) (batch_size : Nat) :
    List Chunk → List UpsertRecord × Nat × List (List UpsertRecord)
      → List UpsertRecord × Nat × List (List UpsertRecord)
  | [], st => st
  | c :: rest, (pending, uploaded, calls) =>
    match c.embedding with
    | none => upsertLoop hh fails batch_size rest (pending, uploaded, calls)
    | some v =>
      let pending1 := pending ++ [mkRecord hh c v]
      if batch_size ≤ pending1.length then
        match fails calls.length with
        | some _ =>
          upsertLoop hh fails batch_size rest (pending1, uploaded, calls ++ [pending1])
        | none =>
          upsertLoop hh fails batch_size rest
            ([], uploaded + pending1.length, calls ++ [pending1])
      else upsertLoop hh fails batch_size rest (pending1, uploaded, calls)

/-- `async_upsert_to_pinecone(chunks, index_name, batch_size)`.  After the
loop, leftover pending records are upserted by a *bare* call (no `try`): if
that call raises, the exception propagates to the caller (`.error`).
Otherwise the summary dict is returned with status `"success"` iff
`uploaded_count == len(chunks)`, else `"partial"`. -/
def async_upsert_to_pinecone (hh : Str → Str) (fails : Nat → Option Str)
    (chunks : List Chunk) (batch_size : Nat) : Except Str UploadOut :=
  match upsertLoop hh fails batch_size chunks ([], 0, []) with
  | (pending, uploaded, calls) =>
    if pending.isEmpty then
      .ok ⟨chunks.length, uploaded,
        (if uploaded = chunks.length then "success".data else "partial".data), calls⟩
    else
      match fails calls.length with
      | some e => .error e
      | none =>
        .ok ⟨chunks.length, uploaded + pending.length,
          (if uploaded + pending.length = chunks.length then "success".data
           else "partial".data),
          calls ++ [pending]⟩

/-! ## Streaming parse -/

/-- A document source: unopenable (with the underlying exception text), or a
list of per-page extraction outcomes — the page's text, or the exception the
extractor raised for that page. -/
abbrev DocSource := Except Str (List (Except Str Str))

/-- Sequencing of the per-page extractions: pages are visited in order and
the first raising page aborts with its exception, exactly as the source's
single `try` around the whole loop observes it. -/
def collectPages : List (Except Str Str) → Except Str (List Str)
  | [] => .ok []
  | p :: rest =>
    match p with
    | .error e => .error e
    | .ok t =>
      match collectPages rest with
      | .error e => .error e
      | .ok ts => .ok (t :: ts)

/-- The batching of the page loop: append each page's text to `batch` and
yield it when it holds `batch_size` pages or at the last page index. -/
def buildBatches (bs total : Nat) : Nat → List Str → List Str → List (List Str)
  | _, _, [] => []
  | idx, batch, t :: rest =>
    let batch1 := batch ++ [t]
    if batch1.length = bs ∨ idx = total - 1 then
      batch1 :: buildBatches bs total (idx + 1) [] rest
    else buildBatches bs total (idx + 1) batch1 rest

/-- The shared body of `stream_pdf_pages` / `stream_upload_file`: open the
source, extract every page, batch the texts. -/
def streamCore (doc : DocSource) (bs : Nat) : Except Str (List (List Str)) :=
  match doc with
  | .error e => .error e
  | .ok pages =>
    match collectPages pages with
    | .error e => .error e
    | .ok texts => .ok (buildBatches bs texts.length 0 [] texts)

/-- `stream_pdf_pages(file_path, batch_size)`: any exception (open or
per-page extraction) is caught by the function's single `try/except` and
re-raised as `Exception("Error streaming PDF: " + str(e))`. -/
def stream_pdf_pages (doc : DocSource) (batch_size : Nat) :
    Except Str (List (List Str)) :=
  match streamCore doc batch_size with
  | .ok bts => .ok bts
  | .error e => .error ("Error streaming PDF: ".data ++ e)

/-- `stream_upload_file(file_content, batch_size)`: identical to
`stream_pdf_pages` but for an in-memory source, with its own message. -/
def stream_upload_file (doc : DocSource) (batch_size : Nat) :
    Except Str (List (List Str)) :=
  match streamCore doc batch_size with
  | .ok bts => .ok bts
  | .error e => .error ("Error streaming upload: ".data ++ e)

/-! ## `fast_process_large_document` -/

/-- The observable part of the pipeline's `stats` dict: overall status
(`"processing"`/`"completed"`/`"error"`), the caught exception text, and the
per-step counts, each `none` until its step completes.  Wall-clock timings
are not modelled. -/
structure PipeStats where
  status : Str
  error : Option Str := none
  pages : Option Nat := none
  total_chunks : Option Nat := none
  selected_chunks : Option Nat := none
  chunks_embedded : Option Nat := none
  uploaded_chunks : Option Nat := none
  upload_status : Option Str := none
deriving DecidableEq

/-- `fast_process_large_document(file_path/file_content, query, index_name)`
for a source that parses to `doc`.  `hh` models MD5, `f` the embedding
model, `fails` the upsert-failure oracle.  Control flow mirrors the source's
single `try/except`: any raise yields status `"error"` with `str(e)`.  The
two observable divisions by a possibly-zero count are the selection-stats
`reduction` (divides by `len(chunks)`) and the final `time_per_page` /
`embedding_reduction` metrics (divide by `len(all_texts)` and
`len(chunks)`); each is modelled by an explicit zero test raising
`"division by zero"` where Python's arithmetic would.  (The division by
`total_time` cannot be zero: wall time is positive.) -/
def fast_process_large_document (doc : DocSource) (query : Option Str)
    (hh : Str → Str) (f : Str → List Int) (fails : Nat → Option Str) : PipeStats :=
  match stream_pdf_pages doc 5 with
  | .error e => { status := "error".data, error := some e }
  | .ok batches =>
    let all_texts := batches.flatten
    let chunks := intelligent_chunk_split all_texts 2000
    let selected :=
      match query with
      | some q => select_most_relevant_chunks chunks (pySplitWS (pyLower q)) 15
      | none => noQuerySelect chunks
    if chunks.length = 0 then
      { status := "error".data, error := some "division by zero".data,
        pages := some all_texts.length, total_chunks := some chunks.length }
    else
      let embedded := embed_chunks_parallel hh f (fun _ => none) selected
      match async_upsert_to_pinecone hh fails embedded 100 with
      | .error e =>
        { status := "error".data, error := some e,
          pages := some all_texts.length, total_chunks := some chunks.length,
          selected_chunks := some selected.length,
          chunks_embedded := some embedded.length }
      | .ok up =>
        if all_texts.length = 0 then
          { status := "error".data, error := some "division by zero".data,
            pages := some all_texts.length, total_chunks := some chunks.length,
            selected_chunks := some selected.length,
            chunks_embedded := some embedded.length,
            uploaded_chunks := some up.uploaded_chunks,
            upload_status := some up.status }
        else
          { status := "completed".data,
            pages := some all_texts.length, total_chunks := some chunks.length,
            selected_chunks := some selected.length,
            chunks_embedded := some embedded.length,
            uploaded_chunks := some up.uploaded_chunks,
            upload_status := some up.status }

/-- Two chunks with equal relevance score (both contain only the term
`"term"`), listed with descending ids. -/
def exC4 : List Chunk :=
  [⟨5, "term".data, 4, none, none⟩, ⟨3, "term".data, 4, none, none⟩]

/-- Twenty chunks with ids 0..19. -/
def exC5 : List Chunk := (List.range 20).map (fun i => ⟨i, ['a'], 1, none, none⟩)

/-- A two-section page on which the separator overflow shows: with budget 10,
sections `"aaaaa"` and `"bbbbb"` merge into a chunk of `char_count` 12. -/
def exC3 : List Str := ["aaaaa\n\nbbbbb\n\nc".data]

/-- 250 chunks that all carry an embedding (ids 0..249). -/
def chunks250 : List Chunk :=
  (List.range 250).map (fun i => ⟨i, [], 0, none, some []⟩)

/-- A failure oracle under which only the first attempted upsert call
raises. -/
def failsOnce : Nat → Option Str :=
  fun n => if n = 0 then some "boom".data else none

end FastDoc

namespace FastDoc

/-! # Theorems -/

/-! ## Basic string lemmas -/

theorem nonWS_append (s t : Str) : nonWS (s ++ t) = nonWS s ++ nonWS t := by
  simp [nonWS, List.filter_append]

theorem nonWS_dropWhile (s : Str) : nonWS (s.dropWhile isWS) = nonWS s := by
  induction s with
  | nil => rfl
  | cons c t ih =>
    by_cases h : isWS c
    · rw [List.dropWhile_cons, if_pos h, ih]
      simp [nonWS, h]
    · rw [List.dropWhile_cons, if_neg h]

theorem nonWS_reverse (s : Str) : nonWS s.reverse = (nonWS s).reverse := by
  simp [nonWS, List.filter_reverse]

theorem nonWS_pyStrip (s : Str) : nonWS (pyStrip s) = nonWS s := by
  unfold pyStrip
  rw [nonWS_reverse, nonWS_dropWhile, nonWS_reverse, List.reverse_reverse,
    nonWS_dropWhile]

theorem nonWS_nn : nonWS nn = [] := by decide

theorem splitNN_ne_nil (s : Str) : splitNN s ≠ [] := by
  unfold splitNN
  match s with
  | [] => simp
  | [c] => simp
  | a :: b :: rest =>
    by_cases h : a = '\n' ∧ b = '\n'
    · simp [h]
    · simp only [if_neg h]
      cases hs : splitNN (b :: rest) with
      | nil => simp
      | cons p ps => simp

theorem joinNN_splitNN (s : Str) : joinNN (splitNN s) = s := by
  induction s using splitNN.induct with
  | case1 => rfl
  | case2 c => rfl
  | case3 a b rest h ih =>
    obtain ⟨ha, hb⟩ := h
    subst ha; subst hb
    rw [splitNN]
    simp only [if_pos (show '\n' = '\n' ∧ '\n' = '\n' from ⟨rfl, rfl⟩)]
    cases hs : splitNN rest with
    | nil => exact absurd hs (splitNN_ne_nil rest)
    | cons p ps =>
      rw [hs] at ih
      cases ps with
      | nil => simp only [joinNN, nn] at *; simp [ih]
      | cons q qs =>
        simp only [joinNN, nn] at *
        simp [ih]
  | case4 a b rest h hs ih =>
    exact absurd hs (splitNN_ne_nil _)
  | case5 a b rest h p ps hs ih =>
    rw [splitNN]
    simp only [if_neg h, hs]
    rw [hs] at ih
    cases ps with
    | nil =>
      simp only [joinNN] at *
      simp [ih]
    | cons q qs =>
      simp only [joinNN] at *
      simp only [List.cons_append, List.append_assoc] at *
      rw [← ih]

theorem nonWS_joinNN (L : List Str) : nonWS (joinNN L) = nonWS L.flatten := by
  induction L with
  | nil => rfl
  | cons s rest ih =>
    cases rest with
    | nil => simp [joinNN, nonWS_append]
    | cons t ts =>
      simp only [joinNN, List.flatten] at *
      rw [nonWS_append, nonWS_append, nonWS_nn, ih]
      simp [nonWS_append]

theorem nonWS_flatten_splitNN (s : Str) :
    nonWS (splitNN s).flatten = nonWS s := by
  rw [← nonWS_joinNN, joinNN_splitNN]

theorem pyStrip_nil_nonWS {s : Str} (h : pyStrip s = []) : nonWS s = [] := by
  rw [← nonWS_pyStrip, h]; rfl

/-! ## Chunking lemmas -/

theorem chunk_split_flat (texts : List Str) (maxC : Nat) :
    intelligent_chunk_split texts maxC
      = chunkFinish ((allSections texts).foldl (chunkStep maxC) ⟨[], [], 0⟩) := by
  unfold intelligent_chunk_split allSections
  congr 1
  generalize (⟨[], [], 0⟩ : SplitState) = st
  induction texts generalizing st with
  | nil => rfl
  | cons p ps ih => simp [List.foldl_append, ih]

theorem chunkStep_nonWS (maxC : Nat) (st : SplitState) (sec : Str) :
    nonWS (stateText (chunkStep maxC st sec)) = nonWS (stateText st) ++ nonWS sec := by
  unfold chunkStep
  by_cases hb : pyStrip sec = []
  · rw [if_pos hb, pyStrip_nil_nonWS hb, List.append_nil]
  · rw [if_neg hb]
    by_cases hf : maxC < st.current.length + sec.length ∧ st.current ≠ []
    · rw [if_pos hf]
      simp only [stateText, List.map_append, List.flatten_append, nonWS_append]
      simp [nonWS_append, nonWS_pyStrip]
    · rw [if_neg hf]
      by_cases hc : st.current ≠ []
      · simp only [stateText, if_pos hc]
        simp [nonWS_append, nonWS_nn]
      · simp only [stateText, if_neg hc]
        simp only [not_not] at hc
        simp [hc, nonWS_append]

theorem chunkFold_nonWS (maxC : Nat) (secs : List Str) (st : SplitState) :
    nonWS (stateText (secs.foldl (chunkStep maxC) st))
      = nonWS (stateText st) ++ nonWS secs.flatten := by
  induction secs generalizing st with
  | nil => simp [nonWS]
  | cons sec rest ih =>
    simp only [List.foldl_cons, List.flatten_cons]
    rw [ih, chunkStep_nonWS, nonWS_append, List.append_assoc]

theorem chunkFinish_nonWS (st : SplitState) :
    nonWS ((chunkFinish st).map Chunk.chunk_text).flatten = nonWS (stateText st) := by
  unfold chunkFinish stateText
  by_cases h : pyStrip st.current = []
  · rw [if_pos h]
    rw [nonWS_append, pyStrip_nil_nonWS h, List.append_nil]
  · rw [if_neg h]
    simp [nonWS_append, nonWS_pyStrip]

theorem nonWS_allSections (texts : List Str) :
    nonWS (allSections texts).flatten = nonWS texts.flatten := by
  unfold allSections
  induction texts with
  | nil => rfl
  | cons p ps ih =>
    simp only [List.map_cons, List.flatten_cons, List.flatten_append, nonWS_append, ih]
    rw [nonWS_flatten_splitNN]

theorem sizeInv_current_chunk {texts : List Str} {maxC : Nat} {st : SplitState}
    (h : SizeInv texts maxC st) (i : Nat) :
    ChunkSized texts maxC ⟨i, pyStrip st.current, st.current.length, none, none⟩ := by
  rcases h.2 with hle | ⟨hmem, hgt⟩
  · exact Or.inl hle
  · exact Or.inr ⟨st.current, hmem, rfl, rfl, hgt⟩

theorem chunkStep_sizeInv {texts : List Str} {maxC : Nat} {st : SplitState} {sec : Str}
    (h : SizeInv texts maxC st) (hsec : sec ∈ allSections texts) :
    SizeInv texts maxC (chunkStep maxC st sec) := by
  unfold chunkStep
  by_cases hb : pyStrip sec = []
  · rw [if_pos hb]; exact h
  · rw [if_neg hb]
    by_cases hf : maxC < st.current.length + sec.length ∧ st.current ≠ []
    · rw [if_pos hf]
      refine ⟨?_, ?_⟩
      · intro c hc
        rcases List.mem_append.mp hc with hc | hc
        · exact h.1 c hc
        · rcases List.mem_singleton.mp hc with rfl
          exact sizeInv_current_chunk h _
      · by_cases hlen : sec.length ≤ maxC + 2
        · exact Or.inl hlen
        · refine Or.inr ⟨hsec, ?_⟩
          dsimp only
          omega
    · rw [if_neg hf]
      by_cases hc : st.current ≠ []
      · simp only [if_pos hc]
        refine ⟨h.1, Or.inl ?_⟩
        have : ¬ maxC < st.current.length + sec.length := by tauto
        simp only [List.length_append, nn]
        simp only [List.length_cons, List.length_nil]
        omega
      · simp only [if_neg hc]
        refine ⟨h.1, ?_⟩
        by_cases hlen : sec.length ≤ maxC + 2
        · exact Or.inl hlen
        · refine Or.inr ⟨hsec, ?_⟩
          dsimp only
          omega

theorem chunkFold_sizeInv {texts : List Str} {maxC : Nat} {st : SplitState}
    {secs : List Str} (h : SizeInv texts maxC st)
    (hsecs : ∀ s ∈ secs, s ∈ allSections texts) :
    SizeInv texts maxC (secs.foldl (chunkStep maxC) st) := by
  induction secs generalizing st with
  | nil => exact h
  | cons sec rest ih =>
    exact ih (chunkStep_sizeInv h (hsecs sec (by simp)))
      (fun s hs => hsecs s (by simp [hs]))

theorem chunkFinish_sized {texts : List Str} {maxC : Nat} {st : SplitState}
    (h : SizeInv texts maxC st) :
    ∀ c ∈ chunkFinish st, ChunkSized texts maxC c := by
  unfold chunkFinish
  by_cases hs : pyStrip st.current = []
  · rw [if_pos hs]; exact h.1
  · rw [if_neg hs]
    intro c hc
    rcases List.mem_append.mp hc with hc | hc
    · exact h.1 c hc
    · rcases List.mem_singleton.mp hc with rfl
      exact sizeInv_current_chunk h _

/-! ## Embedding-cache lemmas -/

theorem foldlCache_miss {K V : Type} [DecidableEq K] (h : Str → K) (f : Str → V)
    (l : List (Nat × Str)) (cache : K → Option V) (k : K)
    (hk : ∀ p ∈ l, h p.2 ≠ k) :
    (l.foldl (fun c p => fun k' => if k' = h p.2 then some (f p.2) else c k') cache) k
      = cache k := by
  induction l generalizing cache with
  | nil => rfl
  | cons p rest ih =>
    simp only [List.foldl_cons]
    rw [ih _ (fun q hq => hk q (by simp [hq]))]
    have hne : k ≠ h p.2 := fun he => hk p (by simp) he.symm
    simp [hne]

theorem foldlCache_hit {K V : Type} [DecidableEq K] (h : Str → K) (f : Str → V)
    (l : List (Nat × Str)) (cache : K → Option V) (k : K) (w : V)
    (hex : ∃ p ∈ l, h p.2 = k) (hw : ∀ p ∈ l, h p.2 = k → f p.2 = w) :
    (l.foldl (fun c p => fun k' => if k' = h p.2 then some (f p.2) else c k') cache) k
      = some w := by
  induction l generalizing cache with
  | nil => rcases hex with ⟨p, hp, _⟩; cases hp
  | cons p rest ih =>
    simp only [List.foldl_cons]
    by_cases hr : ∃ q ∈ rest, h q.2 = k
    · exact ih _ hr (fun q hq hqk => hw q (List.mem_cons_of_mem p hq) hqk)
    · have hpk : h p.2 = k := by
        rcases hex with ⟨q, hq, hqk⟩
        rcases List.mem_cons.mp hq with rfl | hq
        · exact hqk
        · exact absurd ⟨q, hq, hqk⟩ hr
      push_neg at hr
      rw [foldlCache_miss h f rest _ k hr]
      rw [hw p (by simp) hpk] at *
      simp [hpk]

theorem mem_enumFrom_of_mem {t : Str} {l : List Str} (ht : t ∈ l) (n : Nat) :
    ∃ i, (i, t) ∈ l.enumFrom n := by
  induction l generalizing n with
  | nil => cases ht
  | cons x xs ih =>
    rcases List.mem_cons.mp ht with rfl | ht
    · exact ⟨n, by simp [List.enumFrom]⟩
    · obtain ⟨i, hi⟩ := ih ht (n + 1)
      exact ⟨i, by simp [List.enumFrom, hi]⟩

theorem map_snd_filter_enumFrom (P : Str → Bool) (l : List Str) (n : Nat) :
    ((l.enumFrom n).filter (fun p => P p.2)).map (fun p => p.2) = l.filter P := by
  induction l generalizing n with
  | nil => rfl
  | cons x xs ih =>
    simp only [List.enumFrom, List.filter_cons]
    by_cases h : P x
    · simp [h, ih]
    · simp [h, ih]

/-- The texts `embed_batch` actually sends to the model are exactly the
input occurrences whose hash misses the pre-call cache, in order — duplicate
uncached occurrences are each sent. -/
theorem embed_batch_toEmbed {K V : Type} [DecidableEq K] (h : Str → K)
    (f : Str → V) (cache : K → Option V) (texts : List Str) :
    (embed_batch h f cache texts).2.2
      = texts.filter (fun s => (cache (h s)).isNone) := by
  show ((texts.enum.filter (fun p => (cache (h p.2)).isNone)).map (fun p => p.2))
      = texts.filter (fun s => (cache (h s)).isNone)
  rw [show texts.enum = texts.enumFrom 0 from rfl]
  exact map_snd_filter_enumFrom (fun s => (cache (h s)).isNone) texts 0

theorem embed_batch_single_hit {K V : Type} [DecidableEq K] (h : Str → K)
    (f : Str → V) (cache : K → Option V) (t : Str) (v : V)
    (hv : cache (h t) = some v) :
    (embed_batch h f cache [t]).1 = [v] ∧ (embed_batch h f cache [t]).2.2 = [] := by
  constructor
  · unfold embed_batch
    simp only [List.enum, List.enumFrom, List.map_cons, List.map_nil, hv]
    simp [List.filter, hv]
  · rw [embed_batch_toEmbed]
    simp [hv]

/-! ## Selection lemmas -/

theorem selectPass_go (query_keywords : List Str) (chunks : List Chunk)
    (acc : List Chunk × List Chunk) :
    chunks.foldl
      (fun acc c =>
        let s := relevanceScore query_keywords c
        if 0 < s then
          let c' := { c with relevance_score := some s }
          (acc.1 ++ [c'], acc.2 ++ [c'])
        else (acc.1 ++ [c], acc.2))
      acc
      = (acc.1 ++ chunks.map (scoredUpd query_keywords),
         acc.2 ++ chunks.filterMap (scoredSel query_keywords)) := by
  induction chunks generalizing acc with
  | nil => simp
  | cons c cs ih =>
    simp only [List.foldl_cons]
    by_cases h : 0 < relevanceScore query_keywords c
    · simp only [if_pos h]
      rw [ih]
      simp [scoredUpd, scoredSel, if_pos h]
    · simp only [if_neg h]
      rw [ih]
      simp [scoredUpd, scoredSel, if_neg h]

theorem selectPass_fst (query_keywords : List Str) (chunks : List Chunk) :
    (selectPass query_keywords chunks).1 = chunks.map (scoredUpd query_keywords) := by
  unfold selectPass
  rw [selectPass_go]
  simp

theorem selectPass_snd (query_keywords : List Str) (chunks : List Chunk) :
    (selectPass query_keywords chunks).2
      = chunks.filterMap (scoredSel query_keywords) := by
  unfold selectPass
  rw [selectPass_go]
  simp

theorem scoredSel_some {query_keywords : List Str} {a c : Chunk}
    (h : scoredSel query_keywords a = some c) :
    c = { a with relevance_score := some (relevanceScore query_keywords a) } ∧
      0 < relevanceScore query_keywords a := by
  unfold scoredSel at h
  by_cases hp : 0 < relevanceScore query_keywords a
  · simp only [if_pos hp, Option.some.injEq] at h
    exact ⟨h.symm, hp⟩
  · simp [if_neg hp] at h

theorem mem_insertDesc {c x : Chunk} {l : List Chunk} :
    x ∈ insertDesc c l ↔ x = c ∨ x ∈ l := by
  induction l with
  | nil => simp [insertDesc]
  | cons d ds ih =>
    unfold insertDesc
    by_cases h : scoreOf c < scoreOf d
    · rw [if_pos h]
      simp only [List.mem_cons, ih]
      tauto
    · rw [if_neg h]
      simp only [List.mem_cons]

theorem mem_sortDesc {x : Chunk} {l : List Chunk} :
    x ∈ sortDesc l ↔ x ∈ l := by
  induction l with
  | nil => simp [sortDesc]
  | cons c cs ih =>
    unfold sortDesc
    rw [mem_insertDesc, ih]
    simp

theorem insertDesc_sorted {c : Chunk} {l : List Chunk}
    (h : l.Pairwise (fun a b => scoreOf b ≤ scoreOf a)) :
    (insertDesc c l).Pairwise (fun a b => scoreOf b ≤ scoreOf a) := by
  induction l with
  | nil => simp [insertDesc]
  | cons d ds ih =>
    unfold insertDesc
    by_cases hcd : scoreOf c < scoreOf d
    · rw [if_pos hcd]
      rw [List.pairwise_cons] at h ⊢
      refine ⟨?_, ih h.2⟩
      intro x hx
      rcases mem_insertDesc.mp hx with rfl | hx
      · omega
      · exact h.1 x hx
    · rw [if_neg hcd]
      rw [List.pairwise_cons] at h ⊢
      refine ⟨?_, List.pairwise_cons.mpr h⟩
      intro x hx
      rcases List.mem_cons.mp hx with rfl | hx
      · omega
      · have := h.1 x hx
        omega

theorem sortDesc_sorted (l : List Chunk) :
    (sortDesc l).Pairwise (fun a b => scoreOf b ≤ scoreOf a) := by
  induction l with
  | nil => simp [sortDesc]
  | cons c cs ih => exact insertDesc_sorted ih

theorem insertDesc_stable {R : Chunk → Chunk → Prop} {c : Chunk} {l : List Chunk}
    (h : l.Pairwise (StableDesc R)) (hc : ∀ d ∈ l, R c d) :
    (insertDesc c l).Pairwise (StableDesc R) := by
  induction l with
  | nil => simp [insertDesc]
  | cons d ds ih =>
    unfold insertDesc
    rw [List.pairwise_cons] at h
    by_cases hcd : scoreOf c < scoreOf d
    · rw [if_pos hcd]
      rw [List.pairwise_cons]
      refine ⟨?_, ih h.2 (fun x hx => hc x (by simp [hx]))⟩
      intro x hx
      rcases mem_insertDesc.mp hx with rfl | hx
      · exact Or.inl hcd
      · exact h.1 x hx
    · rw [if_neg hcd]
      rw [List.pairwise_cons]
      constructor
      · intro x hx
        rcases List.mem_cons.mp hx with rfl | hx
        · rcases Nat.lt_or_ge (scoreOf x) (scoreOf c) with hlt | hge
          · exact Or.inl hlt
          · exact Or.inr ⟨by omega, hc x (by simp)⟩
        · rcases h.1 x hx with hlt | ⟨heq, hR⟩
          · exact Or.inl (by omega)
          · rcases Nat.lt_or_ge (scoreOf x) (scoreOf c) with hlt | hge
            · exact Or.inl hlt
            · exact Or.inr ⟨by omega, hc x (by simp [hx])⟩
      · exact List.pairwise_cons.mpr h

theorem sortDesc_stable {R : Chunk → Chunk → Prop} {l : List Chunk}
    (h : l.Pairwise R) :
    (sortDesc l).Pairwise (StableDesc R) := by
  induction l with
  | nil => simp [sortDesc]
  | cons c cs ih =>
    rw [List.pairwise_cons] at h
    exact insertDesc_stable (ih h.2)
      (fun d hd => h.1 d (mem_sortDesc.mp hd))

/-! ## Claim C4 -/

/-- C4, counterexample: the claim that for every chunk list ties are broken
by ascending `chunk_id` is false.  On input `exC4` (ids 5 then 3, equal score
30 each), `select_most_relevant_chunks` keeps the input order of Python's
stable sort and returns ids `[5, 3]`, not `[3, 5]`. -/
theorem C4_counterexample :
    ¬ (select_most_relevant_chunks exC4 [] 10).Pairwise
        (fun a b => scoreOf b < scoreOf a ∨
          (scoreOf a = scoreOf b ∧ a.chunk_id < b.chunk_id)) := by
  decide

/-- C4, amended: `select_most_relevant_chunks` returns at most `top_k`
chunks, never returns a chunk whose relevance score is 0 (every returned
chunk carries a positive score), and orders its result by descending
relevance score with ties broken by input order; when the input chunk list
has strictly increasing `chunk_id`s (as the chunker produces), ties are
therefore broken by ascending `chunk_id`. -/
theorem C4_selection_spec (chunks : List Chunk) (query_keywords : List Str)
    (top_k : Nat) :
    (select_most_relevant_chunks chunks query_keywords top_k).length ≤ top_k ∧
      (∀ c ∈ select_most_relevant_chunks chunks query_keywords top_k,
        ∃ s, c.relevance_score = some s ∧ 0 < s) ∧
      (select_most_relevant_chunks chunks query_keywords top_k).Pairwise
        (fun a b => scoreOf b ≤ scoreOf a) ∧
      (chunks.Pairwise (fun a b => a.chunk_id < b.chunk_id) →
        (select_most_relevant_chunks chunks query_keywords top_k).Pairwise
          (StableDesc (fun a b => a.chunk_id < b.chunk_id))) := by
  refine ⟨List.length_take_le _ _, ?_, ?_, ?_⟩
  · intro c hc
    have hc' : c ∈ sortDesc (selectPass query_keywords chunks).2 :=
      (List.take_sublist _ _).subset hc
    have hc'' : c ∈ (selectPass query_keywords chunks).2 := mem_sortDesc.mp hc'
    rw [selectPass_snd] at hc''
    obtain ⟨a, _, ha⟩ := List.mem_filterMap.mp hc''
    obtain ⟨rfl, hpos⟩ := scoredSel_some ha
    exact ⟨relevanceScore query_keywords a, rfl, hpos⟩
  · exact (sortDesc_sorted _).sublist (List.take_sublist _ _)
  · intro h
    refine List.Pairwise.sublist (List.take_sublist _ _) (sortDesc_stable ?_)
    rw [selectPass_snd]
    refine List.Pairwise.filterMap _ ?_ h
    intro a a' hlt b hb b' hb'
    have hb1 := (scoredSel_some hb).1
    have hb2 := (scoredSel_some hb').1
    subst hb1; subst hb2
    exact hlt

/-- C4, witness: the amended ordering property at a concrete id-sorted input
(chunk 0 containing `"term"`, chunk 1 blank). -/
theorem C4_selection_spec_witness :
    (List.Pairwise (fun a b : Chunk => a.chunk_id < b.chunk_id)
        [⟨0, "term".data, 4, none, none⟩, ⟨1, "x".data, 1, none, none⟩]) ∧
      (select_most_relevant_chunks
          [⟨0, "term".data, 4, none, none⟩, ⟨1, "x".data, 1, none, none⟩] [] 2).Pairwise
        (StableDesc (fun a b => a.chunk_id < b.chunk_id)) :=
  ⟨by decide,
    (C4_selection_spec
      [⟨0, "term".data, 4, none, none⟩, ⟨1, "x".data, 1, none, none⟩]
      [] 2).2.2.2 (by decide)⟩

/-! ## Claim C10 -/

/-- C10, counterexample: `select_most_relevant_chunks` is not free of side
effects on its inputs: it sets `chunk["relevance_score"]` on the input chunk
dicts.  A chunk with id 0 (score 100) comes back with its record mutated. -/
theorem C10_counterexample :
    ¬ (selectMutatedInput [⟨0, ['a'], 1, none, none⟩] []
        = [⟨0, ['a'], 1, none, none⟩]) := by
  decide

/-- C10, amended: the only effect of `select_most_relevant_chunks` on its
input is to set `relevance_score` on every input chunk record whose score is
positive (the selection itself is a deterministic function of the inputs);
erasing that one key, the input list is unchanged — ids, texts, character
counts, order and length are all preserved. -/
theorem C10_mutation_spec (chunks : List Chunk) (query_keywords : List Str) :
    selectMutatedInput chunks query_keywords
        = chunks.map (scoredUpd query_keywords) ∧
      (selectMutatedInput chunks query_keywords).map eraseScore
        = chunks.map eraseScore := by
  have h1 : selectMutatedInput chunks query_keywords
      = chunks.map (scoredUpd query_keywords) := selectPass_fst _ _
  refine ⟨h1, ?_⟩
  rw [h1, List.map_map]
  refine List.map_congr_left ?_
  intro c _
  unfold Function.comp scoredUpd eraseScore
  by_cases h : 0 < relevanceScore query_keywords c
  · rw [if_pos h]
  · rw [if_neg h]

/-! ## Claim C5 -/

theorem pyRange_length {step : Nat} (start stop : Nat) (h : step ≠ 0) :
    (pyRange start stop step).length = (stop - start + step - 1) / step := by
  unfold pyRange
  rw [if_neg h]
  simp

/-- C5, counterexample: the claim that with at least 10 chunks the no-query
path returns 10 chunks in total is false: with 20 chunks the step is
`max(1, 20 // 10) = 2` and `[chunks[0]] + chunks[1::2]` has 11 elements. -/
theorem C5_counterexample : ¬ ((noQuerySelect exC5).length = 10) := by
  decide

/-- C5, amended: on a non-empty chunk list the no-query path returns
`chunks[0]` plus the chunks at indices `1, 1+N, 1+2N, …` below `len(chunks)`
where `N = max(1, len(chunks) // 10)`; the total count is
`1 + ⌈(len(chunks) − 1) / N⌉`, which is 11 (not 10) for 20 chunks and ranges
up to 19 for 10 ≤ len < 20. -/
theorem C5_no_query_selection (chunks : List Chunk) (h : chunks ≠ []) :
    noQuerySelect chunks
        = (0 :: pyRange 1 chunks.length (max 1 (chunks.length / 10))).map
            (fun i => chunks.getD i ⟨0, [], 0, none, none⟩) ∧
      (noQuerySelect chunks).length
        = 1 + (chunks.length - 1 + (max 1 (chunks.length / 10)) - 1)
              / (max 1 (chunks.length / 10)) := by
  match chunks, h with
  | c :: cs, _ =>
    constructor
    · simp [noQuerySelect]
    · simp only [noQuerySelect, List.length_append, List.length_map]
      rw [pyRange_length _ _ (by positivity)]
      simp

/-- C5, witness: the amended statement at a singleton chunk list (one chunk
selected: chunk 0 alone, since `range(1, 1, 1)` is empty). -/
theorem C5_no_query_selection_witness :
    ([(⟨0, ['a'], 1, none, none⟩ : Chunk)] ≠ []) ∧
      (noQuerySelect [⟨0, ['a'], 1, none, none⟩]
          = (0 :: pyRange 1 ([(⟨0, ['a'], 1, none, none⟩ : Chunk)]).length
                (max 1 (([(⟨0, ['a'], 1, none, none⟩ : Chunk)]).length / 10))).map
              (fun i => [(⟨0, ['a'], 1, none, none⟩ : Chunk)].getD i ⟨0, [], 0, none, none⟩) ∧
        (noQuerySelect [⟨0, ['a'], 1, none, none⟩]).length
          = 1 + (([(⟨0, ['a'], 1, none, none⟩ : Chunk)]).length - 1
                  + (max 1 (([(⟨0, ['a'], 1, none, none⟩ : Chunk)]).length / 10)) - 1)
                / (max 1 (([(⟨0, ['a'], 1, none, none⟩ : Chunk)]).length / 10))) :=
  ⟨by decide, C5_no_query_selection [⟨0, ['a'], 1, none, none⟩] (by decide)⟩

/-! ## Claim C2 -/

/-- C2: for every list of page texts and every budget, concatenating the
`chunk_text` fields of `intelligent_chunk_split`'s output in order reproduces
the non-blank content of the input in original order (the non-whitespace
character sequences coincide; only whitespace at section boundaries is
normalized, and sections that were entirely whitespace contribute nothing). -/
theorem C2_chunk_concat_reproduces_content (texts : List Str) (maxC : Nat) :
    nonWS ((intelligent_chunk_split texts maxC).map Chunk.chunk_text).flatten
      = nonWS texts.flatten := by
  rw [chunk_split_flat, chunkFinish_nonWS, chunkFold_nonWS, nonWS_allSections]
  rfl

/-! ## Claim C3 -/

/-- C3, counterexample: the claim "every chunk has `char_count ≤
max_chunk_chars` except a chunk formed from a single section whose own length
already exceeds the budget" is false: with budget 10, the input page
`"aaaaa\n\nbbbbb\n\nc"` produces a first chunk of `char_count` 12 made of two
sections of length 5 each (the inserted `"\n\n"` separator is counted against
no budget check). -/
theorem C3_counterexample :
    ¬ (∀ c ∈ intelligent_chunk_split exC3 10,
        c.char_count ≤ 10 ∨
          ∃ sec ∈ allSections exC3, c.chunk_text = pyStrip sec ∧
            c.char_count = sec.length ∧ 10 < sec.length) := by
  decide

/-- C3, amended: every chunk's `char_count` is at most `max_chunk_chars + 2`
(the budget plus one inserted two-character `"\n\n"` separator), except a chunk
formed from a single section whose own length already exceeds the budget,
which is kept whole rather than split. -/
theorem C3_chunk_size_bound (texts : List Str) (maxC : Nat) (c : Chunk)
    (hc : c ∈ intelligent_chunk_split texts maxC) :
    c.char_count ≤ maxC + 2 ∨
      ∃ sec ∈ allSections texts, c.chunk_text = pyStrip sec ∧
        c.char_count = sec.length ∧ maxC < sec.length := by
  rw [chunk_split_flat] at hc
  refine chunkFinish_sized ?_ c hc
  exact chunkFold_sizeInv ⟨by simp, Or.inl (by simp)⟩ (fun s hs => hs)

/-- C3, witness: the amended bound applied to the concrete chunking of a
one-character page with budget 10. -/
theorem C3_chunk_size_bound_witness :
    (⟨0, ['a'], 1, none, none⟩ : Chunk) ∈ intelligent_chunk_split [['a']] 10 ∧
      ((⟨0, ['a'], 1, none, none⟩ : Chunk).char_count ≤ 10 + 2 ∨
        ∃ sec ∈ allSections [['a']],
          (⟨0, ['a'], 1, none, none⟩ : Chunk).chunk_text = pyStrip sec ∧
            (⟨0, ['a'], 1, none, none⟩ : Chunk).char_count = sec.length ∧
            10 < sec.length) :=
  ⟨by decide, C3_chunk_size_bound [['a']] 10 _ (by decide)⟩

/-! ## Claim C6 -/

/-- C6, counterexample: "identical text appearing in multiple chunks results
in exactly one model invocation for that text, with every subsequent
identical occurrence a cache hit" is false within a single `embed_batch`
call: the cache is consulted for all inputs before any encoding, so with a
fresh cache the input `["a", "a"]` puts the text into `texts_to_embed`
twice — the second occurrence is embedded by the model again, not served
from the cache. -/
theorem C6_counterexample :
    ¬ ((embed_batch (fun s : Str => s) (fun s : Str => s.length)
          (fun _ => (none : Option Nat)) [['a'], ['a']]).2.2.count ['a'] ≤ 1) := by
  decide

/-- C6, amended: the cache deduplicates identical text across `embed_batch`
calls, not within one call.  After any call on `texts`, a further call on a
text `t` of `texts` is a pure cache hit: it sends nothing to the model and
returns exactly the cached vector — the model's vector `f t` if `t` was
uncached before the first call (hence bit-identical on every later call),
and the pre-existing cached vector otherwise.  Within one call,
`texts_to_embed` is exactly the list of occurrences whose hash misses the
pre-call cache, so duplicate uncached occurrences are each sent to the
model.  The content hash is assumed collision-free (`h` injective),
modelling MD5. -/
theorem C6_cache_spec {K V : Type} [DecidableEq K] (h : Str → K)
    (hinj : Function.Injective h) (f : Str → V) (cache : K → Option V)
    (texts : List Str) (t : Str) (ht : t ∈ texts) :
    (embed_batch h f cache texts).2.2
        = texts.filter (fun s => (cache (h s)).isNone) ∧
      ∃ v, (embed_batch h f cache texts).2.1 (h t) = some v ∧
        (embed_batch h f (embed_batch h f cache texts).2.1 [t]).1 = [v] ∧
        (embed_batch h f (embed_batch h f cache texts).2.1 [t]).2.2 = [] ∧
        (cache (h t) = none → v = f t) ∧
        (∀ w, cache (h t) = some w → v = w) := by
  refine ⟨embed_batch_toEmbed h f cache texts, ?_⟩
  have hcache : ∃ v, (embed_batch h f cache texts).2.1 (h t) = some v ∧
      (cache (h t) = none → v = f t) ∧ (∀ w, cache (h t) = some w → v = w) := by
    cases hc : cache (h t) with
    | some w =>
      refine ⟨w, ?_, by simp [hc], fun w' hw' => by cases hw'; rfl⟩
      show (List.foldl _ cache _) (h t) = some w
      rw [foldlCache_miss]
      · exact hc
      · intro p hp hpt
        have := (List.mem_filter.mp hp).2
        rw [hpt, hc] at this
        simp at this
    | none =>
      refine ⟨f t, ?_, fun _ => rfl, fun w' hw' => by cases hw'⟩
      show (List.foldl _ cache _) (h t) = some (f t)
      obtain ⟨i, hi⟩ := mem_enumFrom_of_mem ht 0
      refine foldlCache_hit h f _ cache (h t) (f t) ⟨(i, t), ?_, rfl⟩ ?_
      · refine List.mem_filter.mpr ⟨hi, ?_⟩
        simp [hc]
      · intro p hp hpt
        rw [hinj hpt]
  obtain ⟨v, hv, hnone, hsome⟩ := hcache
  obtain ⟨h1, h2⟩ := embed_batch_single_hit h f _ t v hv
  exact ⟨v, hv, h1, h2, hnone, hsome⟩

/-- C6, witness: the amended cache behaviour at a concrete instance
(identity hash, text length as the "model", fresh cache, one text `"a"`). -/
theorem C6_cache_spec_witness :
    (['a'] ∈ [['a']]) ∧
      ((embed_batch (fun s : Str => s) (fun s : Str => s.length)
            (fun _ => (none : Option Nat)) [['a']]).2.2
          = [['a']].filter (fun s => ((fun _ => (none : Option Nat)) s).isNone) ∧
        ∃ v, (embed_batch (fun s : Str => s) (fun s : Str => s.length)
              (fun _ => (none : Option Nat)) [['a']]).2.1 ['a'] = some v ∧
          (embed_batch (fun s : Str => s) (fun s : Str => s.length)
            (embed_batch (fun s : Str => s) (fun s : Str => s.length)
              (fun _ => (none : Option Nat)) [['a']]).2.1 [['a']]).1 = [v] ∧
          (embed_batch (fun s : Str => s) (fun s : Str => s.length)
            (embed_batch (fun s : Str => s) (fun s : Str => s.length)
              (fun _ => (none : Option Nat)) [['a']]).2.1 [['a']]).2.2 = [] ∧
          ((fun _ => (none : Option Nat)) ['a'] = none → v = ['a'].length) ∧
          (∀ w, (fun _ => (none : Option Nat)) ['a'] = some w → v = w)) :=
  ⟨by decide,
    C6_cache_spec (fun s : Str => s) (fun a b hab => hab)
      (fun s : Str => s.length) (fun _ => (none : Option Nat)) [['a']] ['a']
      (by decide)⟩

/-! ## Upload lemmas -/

theorem upsertLoop_noFail_sizes (hh : Str → Str) {bs : Nat} (hbs : 0 < bs)
    (chunks : List Chunk) :
    ∀ (pending : List UpsertRecord) (uploaded : Nat)
      (calls : List (List UpsertRecord)),
      pending.length < bs → (∀ b ∈ calls, b.length ≤ bs) →
      (upsertLoop hh (fun _ => none) bs chunks (pending, uploaded, calls)).1.length < bs ∧
        ∀ b ∈ (upsertLoop hh (fun _ => none) bs chunks (pending, uploaded, calls)).2.2,
          b.length ≤ bs := by
  induction chunks with
  | nil => intro pending uploaded calls h1 h2; exact ⟨h1, h2⟩
  | cons c rest ih =>
    intro pending uploaded calls h1 h2
    simp only [upsertLoop]
    cases hc : c.embedding with
    | none => exact ih pending uploaded calls h1 h2
    | some v =>
      by_cases hflush : bs ≤ (pending ++ [mkRecord hh c v]).length
      · simp only [if_pos hflush]
        refine ih _ _ _ (by simpa using hbs) ?_
        intro b hb
        rcases List.mem_append.mp hb with hb | hb
        · exact h2 b hb
        · rcases List.mem_singleton.mp hb with rfl
          simp only [List.length_append, List.length_cons, List.length_nil]
          omega
      · simp only [if_neg hflush]
        refine ih _ _ _ (by omega) h2

theorem upsertLoop_noFail_count (hh : Str → Str) (bs : Nat) (chunks : List Chunk) :
    ∀ (pending : List UpsertRecord) (uploaded : Nat)
      (calls : List (List UpsertRecord)),
      (upsertLoop hh (fun _ => none) bs chunks (pending, uploaded, calls)).2.1
          + (upsertLoop hh (fun _ => none) bs chunks (pending, uploaded, calls)).1.length
        = uploaded + pending.length
            + chunks.countP (fun c => c.embedding.isSome) := by
  induction chunks with
  | nil =>
    intro pending uploaded calls
    simp [upsertLoop, List.countP_nil]
  | cons c rest ih =>
    intro pending uploaded calls
    simp only [upsertLoop]
    cases hc : c.embedding with
    | none =>
      rw [ih]
      rw [List.countP_cons]
      simp [hc]
    | some v =>
      by_cases hflush : bs ≤ (pending ++ [mkRecord hh c v]).length
      · simp only [if_pos hflush]
        rw [ih]
        rw [List.countP_cons]
        simp [hc]
        omega
      · simp only [if_neg hflush]
        rw [ih]
        rw [List.countP_cons]
        simp [hc]
        omega

/-- With no upsert failure, `async_upsert_to_pinecone` returns `ok`, uploads
exactly the chunks that carry an embedding, and reports `"partial"` exactly
when some chunk had none. -/
theorem async_upsert_noFail (hh : Str → Str) (chunks : List Chunk) (bs : Nat) :
    ∃ u, async_upsert_to_pinecone hh (fun _ => none) chunks bs = .ok u ∧
      u.total_chunks = chunks.length ∧
      u.uploaded_chunks = chunks.countP (fun c => c.embedding.isSome) ∧
      u.status = (if chunks.countP (fun c => c.embedding.isSome) = chunks.length
                  then "success".data else "partial".data) := by
  have hcount := upsertLoop_noFail_count hh bs chunks [] 0 []
  unfold async_upsert_to_pinecone
  rcases hL : upsertLoop hh (fun _ => none) bs chunks ([], 0, []) with ⟨pending, uploaded, calls⟩
  rw [hL] at hcount
  simp only [List.length_nil, Nat.add_zero, Nat.zero_add] at hcount
  by_cases hp : pending.isEmpty
  · simp only [if_pos hp]
    have hplen : pending.length = 0 := by
      cases pending with
      | nil => rfl
      | cons a l => simp [List.isEmpty] at hp
    refine ⟨_, rfl, rfl, ?_, ?_⟩
    · simp only
      omega
    · have : uploaded = chunks.countP (fun c => c.embedding.isSome) := by omega
      rw [this]
  · simp only [if_neg hp]
    refine ⟨_, rfl, rfl, ?_, ?_⟩
    · simp only
      omega
    · have : uploaded + pending.length = chunks.countP (fun c => c.embedding.isSome) := by
        omega
      rw [this]

/-! ## Claim C7 -/

set_option maxRecDepth 40000 in
/-- C7: `async_upsert_to_pinecone` batches its upsert calls: with a positive
configured `batch_size` and no upsert failure, every attempted call carries
at most `batch_size` records; and concretely, 250 embedded chunks with
`batch_size = 100` issue exactly 3 upsert calls of 100, 100 and 50 records. -/
theorem C7_upload_batching :
    (∀ (hh : Str → Str) (chunks : List Chunk) (batch_size : Nat),
        0 < batch_size →
        ∃ u, async_upsert_to_pinecone hh (fun _ => none) chunks batch_size = .ok u ∧
          ∀ b ∈ u.calls, b.length ≤ batch_size) ∧
      ((async_upsert_to_pinecone (fun _ => []) (fun _ => none) chunks250 100).toOption.map
          (fun u => u.calls.map List.length) = some [100, 100, 50]) := by
  constructor
  · intro hh chunks batch_size hbs
    have hsz := upsertLoop_noFail_sizes hh hbs chunks [] 0 []
      (by simpa using hbs) (by simp)
    unfold async_upsert_to_pinecone
    rcases hL : upsertLoop hh (fun _ => none) batch_size chunks ([], 0, [])
      with ⟨pending, uploaded, calls⟩
    rw [hL] at hsz
    by_cases hp : pending.isEmpty
    · simp only [if_pos hp]
      exact ⟨_, rfl, hsz.2⟩
    · simp only [if_neg hp]
      refine ⟨_, rfl, ?_⟩
      intro b hb
      rcases List.mem_append.mp hb with hb | hb
      · exact hsz.2 b hb
      · rcases List.mem_singleton.mp hb with rfl
        exact Nat.le_of_lt hsz.1
  · decide

/-- C7, witness: the general batching bound applied at one embedded chunk
with `batch_size = 1`. -/
theorem C7_upload_batching_witness :
    0 < 1 ∧
      ∃ u, async_upsert_to_pinecone (fun _ => []) (fun _ => none)
            [⟨0, [], 0, none, some []⟩] 1 = .ok u ∧
        ∀ b ∈ u.calls, b.length ≤ 1 :=
  ⟨by decide,
    C7_upload_batching.1 (fun _ => []) [⟨0, [], 0, none, some []⟩] 1 (by decide)⟩

/-! ## Claim C8 -/

/-- C8, counterexample: "when any single batch upsert raises, the failure is
caught, subsequent batches are still attempted, and the final status becomes
`partial`" is false for the final flush: its upsert is not inside a `try`,
so with one pending batch whose upsert raises, `async_upsert_to_pinecone`
propagates the exception (no `ok`/"partial" result at all) and the pipeline
returns overall status `"error"`. -/
theorem C8_counterexample :
    (async_upsert_to_pinecone (fun _ => []) (fun _ => some "boom".data)
        [⟨0, [], 0, none, some []⟩] 100).toOption = none ∧
      (fast_process_large_document (.ok [.ok "hello".data]) none (fun _ => [])
          (fun _ => []) (fun _ => some "boom".data)).status = "error".data := by
  constructor
  · decide
  · decide

set_option maxRecDepth 40000 in
/-- C8, amended: a *mid-loop* batch upsert failure is caught and does not
abort the upload — the failed batch's records stay pending and are retried
with the following batch, so later batches are still attempted (concretely:
250 embedded chunks, `batch_size = 100`, first call raising, yield attempted
calls of sizes 100, 101, 100, 49 and still upload all 250 with status
`"success"`).  The status `"partial"` (rather than `"success"`) arises
exactly when the uploaded count falls short of the total, which — absent an
uncaught final-flush exception — happens when chunks lack embeddings, not
when batches fail. -/
theorem C8_upload_failure_spec :
    (∀ (hh : Str → Str) (chunks : List Chunk) (batch_size : Nat),
        ∃ u, async_upsert_to_pinecone hh (fun _ => none) chunks batch_size = .ok u ∧
          u.total_chunks = chunks.length ∧
          u.uploaded_chunks = chunks.countP (fun c => c.embedding.isSome) ∧
          u.status = (if chunks.countP (fun c => c.embedding.isSome) = chunks.length
                      then "success".data else "partial".data)) ∧
      ((async_upsert_to_pinecone (fun _ => []) failsOnce chunks250 100).toOption.map
          (fun u => (u.uploaded_chunks, u.status, u.calls.map List.length))
        = some (250, "success".data, [100, 101, 100, 49])) := by
  constructor
  · intro hh chunks batch_size
    exact async_upsert_noFail hh chunks batch_size
  · decide

/-! ## Streaming lemmas -/

theorem collectPages_ok (texts : List Str) :
    collectPages (texts.map Except.ok) = .ok texts := by
  induction texts with
  | nil => rfl
  | cons t ts ih => simp [collectPages, ih]

theorem collectPages_err (texts : List Str) (e : Str)
    (rest : List (Except Str Str)) :
    collectPages (texts.map Except.ok ++ .error e :: rest) = .error e := by
  induction texts with
  | nil => rfl
  | cons t ts ih => simp [collectPages, ih]

theorem buildBatches_flatten_go (bs total : Nat) :
    ∀ (ts : List Str) (idx : Nat) (batch : List Str),
      idx + ts.length = total → ts ≠ [] →
      (buildBatches bs total idx batch ts).flatten = batch ++ ts := by
  intro ts
  induction ts with
  | nil => intro idx batch _ hne; exact absurd rfl hne
  | cons t rest ih =>
    intro idx batch hlen _
    cases rest with
    | nil =>
      have hidx : idx = total - 1 := by
        simp only [List.length_cons, List.length_nil] at hlen
        omega
      simp [buildBatches, hidx]
    | cons r rs =>
      rw [buildBatches]
      by_cases hcond : (batch ++ [t]).length = bs ∨ idx = total - 1
      · rw [if_pos hcond]
        rw [List.flatten_cons]
        rw [ih (idx + 1) [] (by simp at hlen ⊢; omega) (by simp)]
        simp
      · rw [if_neg hcond]
        rw [ih (idx + 1) (batch ++ [t]) (by simp at hlen ⊢; omega) (by simp)]
        simp

theorem buildBatches_flatten (bs : Nat) (texts : List Str) :
    (buildBatches bs texts.length 0 [] texts).flatten = texts := by
  cases texts with
  | nil => rfl
  | cons t ts =>
    exact buildBatches_flatten_go bs (t :: ts).length (t :: ts) 0 [] (by simp) (by simp)

/-! ## Claim C9 -/

/-- C9, counterexample: "a failure to extract a single page's text yields an
empty string for that page rather than raising, and does not abort the whole
parse" is false: the source has no per-page handler — its single
`try/except` wraps the whole loop, so one raising page aborts the entire
parse with the wrapped exception (no batches are produced at all). -/
theorem C9_counterexample :
    stream_pdf_pages (.ok [.error "boom".data]) 5
        = .error ("Error streaming PDF: boom".data) ∧
      (stream_pdf_pages (.ok [.error "boom".data]) 5).toOption = none := by
  exact ⟨rfl, rfl⟩

/-- C9, amended: a page whose extractor *returns* text (even the empty
string) streams through — when every page extracts, all pages are yielded,
batched, in order and in full.  But there is no per-page recovery: if any
single page's extraction raises, the whole parse aborts with
`"Error streaming PDF: " + str(e)` (first failing page wins), and an
unopenable source aborts the same way; the pipeline then returns the
structured status `"error"` carrying that message, with no partial results
from the parsing stage (`stream_upload_file` behaves identically with its
`"Error streaming upload: "` prefix). -/
theorem C9_streaming_spec :
    (∀ (texts : List Str) (bs : Nat),
        stream_pdf_pages (.ok (texts.map Except.ok)) bs
            = .ok (buildBatches bs texts.length 0 [] texts) ∧
          (buildBatches bs texts.length 0 [] texts).flatten = texts) ∧
      (∀ (e : Str) (bs : Nat),
        stream_pdf_pages (.error e) bs
          = .error ("Error streaming PDF: ".data ++ e)) ∧
      (∀ (texts : List Str) (e : Str) (rest : List (Except Str Str)) (bs : Nat),
        stream_pdf_pages (.ok (texts.map Except.ok ++ .error e :: rest)) bs
          = .error ("Error streaming PDF: ".data ++ e)) ∧
      (∀ (e : Str) (query : Option Str) (hh : Str → Str) (f : Str → List Int)
          (fails : Nat → Option Str),
        fast_process_large_document (.error e) query hh f fails
          = { status := "error".data,
              error := some ("Error streaming PDF: ".data ++ e) }) ∧
      (∀ (texts : List Str) (bs : Nat),
        stream_upload_file (.ok (texts.map Except.ok)) bs
          = .ok (buildBatches bs texts.length 0 [] texts)) ∧
      (∀ (texts : List Str) (e : Str) (rest : List (Except Str Str)) (bs : Nat),
        stream_upload_file (.ok (texts.map Except.ok ++ .error e :: rest)) bs
          = .error ("Error streaming upload: ".data ++ e)) := by
  refine ⟨?_, ?_, ?_, ?_, ?_, ?_⟩
  · intro texts bs
    constructor
    · simp [stream_pdf_pages, streamCore, collectPages_ok]
    · exact buildBatches_flatten bs texts
  · intro e bs
    rfl
  · intro texts e rest bs
    simp [stream_pdf_pages, streamCore, collectPages_err]
  · intro e query hh f fails
    cases query <;> rfl
  · intro texts bs
    simp [stream_upload_file, streamCore, collectPages_ok]
  · intro texts e rest bs
    simp [stream_upload_file, streamCore, collectPages_err]

/-! ## Claim C1 -/

/-- C1: on a document that parses to zero pages the pipeline does *not*
return `"completed"` with zero counts: the selection-stats `reduction`
metric divides by `len(chunks) = 0`, the resulting `ZeroDivisionError` is
caught by the pipeline's `except`, and the returned stats carry status
`"error"` with message `"division by zero"` (pages and chunk counts 0, the
later steps' statistics never populated). -/
theorem C1_zero_pages_errors (query : Option Str) (hh : Str → Str)
    (f : Str → List Int) (fails : Nat → Option Str) :
    fast_process_large_document (.ok []) query hh f fails
      = { status := "error".data, error := some "division by zero".data,
          pages := some 0, total_chunks := some 0 } := by
  cases query <;> rfl

end FastDoc
